import Mathlib

/-!
Verification of the L2Snake anti-cheat pipeline and leaderboard contract.

This file shallowly embeds, in Lean 4:
  * the deterministic replay engine `simulate` and its RNG `makeRng` from the
    attestation server (`server` source, `/verify-run` endpoint and helpers);
  * the `/verify-run` request handler (session lookup, hash re-check,
    heartbeat cadence validation, attested response construction);
  * the `SnakeLeaderboard` Solidity contract (`startRun`, `submitScore`,
    `_considerLeaderboardEntry`, `_bubbleUp`, `_recalculateRanks`).

Machine integers are modelled as `Nat`/`Int` with explicit `% 2^32` (JS
`>>> 0` / `Math.imul`) and `% 256` (Solidity `uint8` cast) where overflow or
truncation matters.  JS numbers used as frame counters and timestamps stay
exact (they are small integers, far below 2^53, so float arithmetic on them
is exact).  The exterior cryptographic primitives (keccak256, ECDSA) are not
code of this repository; hashing of a string is modelled by the string
itself (keccak256 is collision-free for the purposes of this development)
and ECDSA recovery is passed in as an explicit function argument, so every
theorem quantifies over it.
-/

namespace L2Snake

/-! ## Deterministic replay engine (server `simulate` / `makeRng`) -/

/-- The modulus 2^32 for JS 32-bit unsigned arithmetic (`>>> 0`). -/
def U32 : Nat := 4294967296

/-- Grid size, `const GRID = 20` in `simulate`. -/
def GRID : Int := 20

/-- A 2-d integer vector: a grid cell or a direction. -/
structure Vec2 where
  x : Int
  y : Int
deriving DecidableEq, Repr

/-- An input event `{ f, d }`: frame index and direction vector.  The model
covers well-typed events (the server code guards `typeof e.d.x === 'number'`
at runtime; on well-typed events the guard always passes). -/
structure InputEvent where
  f : Int
  d : Vec2
deriving DecidableEq, Repr

/-- One insertion step of the stable ascending insertion sort on frame
index.  This models `inputs.slice().sort((a, b) => (a.f||0) - (b.f||0))`:
JS `Array.prototype.sort` is stable, and a stable sort by a total preorder
is unique, so insertion sort computes the same list. -/
def insertByFrame (e : InputEvent) : List InputEvent → List InputEvent
  | [] => [e]
  | x :: xs => if e.f ≤ x.f then e :: x :: xs else x :: insertByFrame e xs

/-- The sorted copy of the input list used for the replay loop. -/
def sortInputs (l : List InputEvent) : List InputEvent := l.foldr insertByFrame []

/-- One call of the closure returned by `makeRng`: mulberry32-style mixing.
All JS operations (`+`, `Math.imul`, `^`, `>>>`, `|`) reduce their operands
mod `2^32`; signed versus unsigned representation does not change any of the
resulting bit patterns, so everything is computed on `Nat % 2^32`.  Returns
(new state `t`, 32-bit output); the JS function returns output `/ 2^32`. -/
def rngNext (t : Nat) : Nat × Nat :=
  let t1 := (t + 0x6D2B79F5) % U32
  let r1 := ((t1 ^^^ (t1 >>> 15)) * (t1 ||| 1)) % U32
  let inner := ((r1 ^^^ (r1 >>> 7)) * (r1 ||| 61)) % U32
  let r2 := r1 ^^^ ((r1 + inner) % U32)
  (t1, (r2 ^^^ (r2 >>> 14)) % U32)

/-- Value of a hex digit, or `none` for a non-digit. -/
def hexDigitVal (c : Char) : Option Nat :=
  if '0' ≤ c ∧ c ≤ '9' then some (c.toNat - '0'.toNat)
  else if 'a' ≤ c ∧ c ≤ 'f' then some (c.toNat - 'a'.toNat + 10)
  else if 'A' ≤ c ∧ c ≤ 'F' then some (c.toNat - 'A'.toNat + 10)
  else none

/-- Model of `parseInt(s, 16)`: parse the longest valid hex-digit prefix.  A string
with no leading hex digit gives NaN in JS, and `NaN >>> 0` is `0`, which is
the accumulator's initial value here. -/
def parseHex16 : List Char → Nat → Nat
  | [], acc => acc
  | c :: cs, acc =>
    match hexDigitVal c with
    | some v => parseHex16 cs (acc * 16 + v)
    | none => acc

/-- Model of the `hex.slice(i, i + 8)` chunking of the seed, fuelled for structural
recursion (fuel `= l.length` always suffices since each step drops ≥ 1). -/
def seedChunksF : Nat → List Char → List (List Char)
  | 0, _ => []
  | _ + 1, [] => []
  | fuel + 1, c :: cs => (c :: cs.take 7) :: seedChunksF fuel (cs.drop 7)

/-- The 8-hex-char chunks of the seed string. -/
def seedChunks (l : List Char) : List (List Char) := seedChunksF l.length l

/-- Model of `seedHex.replace(/^0x/, '')`. -/
def strip0x (s : String) : List Char :=
  match s.data with
  | '0' :: 'x' :: rest => rest
  | l => l

/-- The initial RNG state of `makeRng(seedHex)`: fold the seed's 32-bit hex
words into `h` by xor (`h ^= parseInt(hex.slice(i, i+8), 16) >>> 0`). -/
def makeRngState (seedHex : String) : Nat :=
  (seedChunks (strip0x seedHex)).foldl (fun h chunk => h ^^^ (parseHex16 chunk 0 % U32)) 0

/-- Model of `Math.floor(rng() * GRID)` for one fresh food cell: two RNG calls in
evaluation order `x` then `y`.  `floor((u / 2^32) * 20) = (u * 20) / 2^32`
exactly (both products and the power-of-two division are exact in binary
floating point below 2^53). -/
def drawFood (t : Nat) : Nat × Vec2 :=
  let p1 := rngNext t
  let p2 := rngNext p1.1
  (p2.1, ⟨((p1.2 * 20) / U32 : Nat), ((p2.2 * 20) / U32 : Nat)⟩)

/-- Full state of the `simulate` while-loop.  `pending` is the suffix
`ins[idx..]` of the sorted input list not yet consumed; `frame` is the JS
`frame` counter (and equals the number of loop iterations executed). -/
structure SimSt where
  snake : List Vec2
  dir : Vec2
  food : Vec2
  rngT : Nat
  score : Nat
  frame : Nat
  pending : List InputEvent
deriving Repr

/-- The inner `while (idx < ins.length && (ins[idx].f|0) === frame)` loop:
consume every queued event whose frame index equals the current frame; an
event reversing directly into the current direction is ignored. -/
def applyInputs : List InputEvent → Int → Vec2 → Vec2 × List InputEvent
  | [], _, dir => (dir, [])
  | e :: rest, frame, dir =>
    if e.f = frame then
      applyInputs rest frame (if e.d.x = -dir.x ∧ e.d.y = -dir.y then dir else e.d)
    else (dir, e :: rest)

/-- Model of `collide(h)`: head outside the grid, or overlapping a body segment other
than the current head cell (`snake.some((s, i) => i > 0 && ...)`). -/
def collideB (h : Vec2) (snake : List Vec2) : Bool :=
  decide (h.x < 0) || decide (h.y < 0) || decide (GRID ≤ h.x) || decide (GRID ≤ h.y) ||
    (snake.drop 1).any (fun s => decide (s.x = h.x) && decide (s.y = h.y))

/-- One-to-all iterations of the `while (true)` loop of `simulate`, fuelled
for structural recursion.  Each iteration: apply queued inputs, increment
`frame`, move the head; on collision stop; otherwise grow, then either eat
(score + redraw food) or shrink; stop once `frame > 10000`. -/
def simLoop : Nat → SimSt → SimSt
  | 0, st => st
  | fuel + 1, st =>
    let ap := applyInputs st.pending (Int.ofNat st.frame) st.dir
    let dir := ap.1
    let frame := st.frame + 1
    let hd := st.snake.headD ⟨0, 0⟩
    let head : Vec2 := ⟨hd.x + dir.x, hd.y + dir.y⟩
    if collideB head st.snake then
      { st with dir := dir, pending := ap.2, frame := frame }
    else
      let snake := head :: st.snake
      let st' : SimSt :=
        if head.x = st.food.x ∧ head.y = st.food.y then
          let df := drawFood st.rngT
          { st with snake := snake, dir := dir, pending := ap.2, frame := frame,
                    score := st.score + 1, food := df.2, rngT := df.1 }
        else
          { st with snake := snake.dropLast, dir := dir, pending := ap.2, frame := frame }
      if frame > 10000 then st' else simLoop fuel st'

/-- Fuel that provably suffices for `simLoop`: the loop exits no later than
the iteration taking `frame` to 10001, hence after at most 10001 levels. -/
def FRAME_FUEL : Nat := 10002

/-- Initial loop state of `simulate(inputs, seedHex)`. -/
def initSimSt (inputs : List InputEvent) (seedHex : String) : SimSt :=
  { snake := [⟨5, 10⟩], dir := ⟨1, 0⟩, food := ⟨10, 10⟩, rngT := makeRngState seedHex,
    score := 0, frame := 0, pending := sortInputs inputs }

/-- Final loop state of a replay. -/
def simulateFinal (inputs : List InputEvent) (seedHex : String) : SimSt :=
  simLoop FRAME_FUEL (initSimSt inputs seedHex)

/-- JSON serialization of a direction vector, `JSON.stringify` key order. -/
def jsonVec (v : Vec2) : String :=
  "\x7b\"x\":" ++ toString v.x ++ ",\"y\":" ++ toString v.y ++ "\x7d"

/-- JSON serialization of one input event. -/
def jsonEvent (e : InputEvent) : String :=
  "\x7b\"f\":" ++ toString e.f ++ ",\"d\":" ++ jsonVec e.d ++ "\x7d"

/-- Separator literal used by the serializers. -/
def commaStr : String := ","

/-- Model of `JSON.stringify(inputs || [])`: the serialized raw input list, in
submitted order.  The content hash is keccak256 of this string; since
keccak256 of distinct strings is distinct for the purposes of this model,
the hash is represented by the serialized string itself. -/
def serializeInputs (l : List InputEvent) : String :=
  "[" ++ String.intercalate commaStr (l.map jsonEvent) ++ "]"

/-- Result of `simulate`: recomputed score and content hash. -/
structure SimResult where
  score : Nat
  runHash : String
deriving DecidableEq, Repr

/-- Model of `simulate(inputs, seedHex)`: run the replay loop on the sorted copy of
the inputs, and hash the raw `inputs` list. -/
def simulate (inputs : List InputEvent) (seedHex : String) : SimResult :=
  { score := (simulateFinal inputs seedHex).score, runHash := serializeInputs inputs }

/-! ## Attestation server: the `/verify-run` handler -/

/-- A heartbeat as submitted in the `/verify-run` request body: sequence
index `i`, receipt timestamp `t`, receipt signature.  The model covers
well-typed beats (`Number.isFinite` guards always pass on integers), so the
unreachable `bad beats` rejection is not modelled.  Signatures are opaque
tokens. -/
structure Beat where
  i : Int
  t : Int
  sig : Nat
deriving DecidableEq, Repr

/-- Env-tunable heartbeat configuration: `HB_MIN_BEATS`, `HB_MIN_MS`,
`HB_MAX_MS`, `HB_ALLOW_UNSIG`. -/
structure HBConfig where
  minBeats : Nat
  minMs : Int
  maxMs : Int
  allowUnsig : Bool
deriving Repr

/-- Model of `String.toLowerCase()`, mapping over the character list. -/
def lower (s : String) : String := String.mk (s.data.map Char.toLower)

/-- Per-session state held by the session store: seed, lowercased owner
address, appended heartbeat log (the stored log is not read by
`/verify-run`, which validates the client-submitted `beats`). -/
structure Session where
  seed : String
  address : String
  beats : List (Int × Int)
deriving Repr

/-- Verification rejection reasons, with the diagnostic fields the handler
returns alongside each. -/
inductive VerifyErr where
  | badSession
  | addressMismatch
  | mismatch
  | tooFewBeats (min saw : Nat)
  | badBeatSig
  | nonMonotonicBeats (lastI lastT bi bt : Int)
  | badCadence (dt minMs maxMs : Int)
deriving DecidableEq, Repr

/-- The abi-encoded tuple
`(address, sessionId, canonicalScore, runHash, timeDigest)` whose keccak
digest the attester signs.  The attestation signature is modelled by the
signed tuple itself (signing and hashing are injective external
primitives). -/
structure AttestPayload where
  address : String
  sessionId : String
  score : Nat
  runHash : String
  timeDigest : String
deriving DecidableEq, Repr

/-- The success response of `/verify-run`:
`{ timeDigest, attestSig, score }`, with `attestSig` represented by the
attested tuple. -/
structure VerifyResp where
  timeDigest : String
  attested : AttestPayload
  score : Nat
deriving DecidableEq, Repr

/-- Model of `JSON.stringify(intervals)`. -/
def serializeIntervals (l : List Int) : String :=
  "[" ++ String.intercalate commaStr (l.map toString) ++ "]"

/-- The per-beat validation loop of `/verify-run`: for each beat, check the
receipt signature (unless `HB_ALLOW_UNSIG`), strict monotonicity of index
and timestamp, and the cadence bounds on the inter-beat interval; collect
the intervals.  `bv` models `verifyMessage` recovery on the message
`keccak256(sessionId|i|t)`; the recovered address must match the attester
signer's address (case-insensitively). -/
def checkBeats (c : HBConfig) (bv : String → Int → Int → Nat → String) (signerAddr : String)
    (sid : String) : List Beat → Int → Int → List Int → Except VerifyErr (List Int)
  | [], _, _, intervals => .ok intervals
  | b :: rest, lastI, lastT, intervals =>
    if c.allowUnsig = false ∧ lower (bv sid b.i b.t b.sig) ≠ lower signerAddr then
      .error .badBeatSig
    else if b.i ≤ lastI ∨ b.t ≤ lastT then
      .error (.nonMonotonicBeats lastI lastT b.i b.t)
    else
      let dt : Int := if lastT = 0 then 0 else b.t - lastT
      if lastT ≠ 0 ∧ (dt < c.minMs ∨ c.maxMs < dt) then
        .error (.badCadence dt c.minMs c.maxMs)
      else
        checkBeats c bv signerAddr sid rest b.i b.t
          (if lastT ≠ 0 then intervals ++ [dt] else intervals)

/-- A `/verify-run` request body.  `score` is the client-claimed score; the
handler reads it only for a warning log, never for the attested value. -/
structure VerifyReq where
  sessionId : String
  address : String
  score : Option Int
  runHash : String
  inputs : List InputEvent
  beats : List Beat

/-- The `/verify-run` handler: session lookup, ownership check, replay and
content-hash comparison, heartbeat count and cadence validation, then the
attested response built from the *recomputed* (canonical) score. -/
def verifyRun (c : HBConfig) (bv : String → Int → Int → Nat → String) (signerAddr : String)
    (store : String → Option Session) (r : VerifyReq) : Except VerifyErr VerifyResp :=
  match store r.sessionId with
  | none => .error .badSession
  | some s =>
    if r.address = "" ∨ s.address ≠ lower r.address then .error .addressMismatch
    else
      let sim := simulate r.inputs s.seed
      if sim.runHash ≠ r.runHash then .error .mismatch
      else if r.beats.length < c.minBeats then .error (.tooFewBeats c.minBeats r.beats.length)
      else
        match checkBeats c bv signerAddr r.sessionId r.beats (-1) 0 [] with
        | .error e => .error e
        | .ok intervals =>
          let timeDigest := serializeIntervals intervals
          .ok { timeDigest := timeDigest,
                attested := { address := r.address, sessionId := r.sessionId,
                              score := sim.score, runHash := r.runHash,
                              timeDigest := timeDigest },
                score := sim.score }

/-! ## The `SnakeLeaderboard` contract

Addresses, session ids, hashes and signatures are opaque `Nat` tokens
(`0` is `address(0)`).  Solidity reverts roll every state change back, so a
rejected call is modelled as `Except.error` carrying no state.  ECDSA
recovery over the payload digest is an explicit function argument
`recover`, so every theorem holds for arbitrary signature schemes. -/

/-- Model of `runs[sessionId]`: owner and finalization flag of one paid attempt. -/
structure RunState where
  player : Nat
  finalized : Bool
deriving DecidableEq, Repr

/-- Model of `players[addr]`: best score seen, started-run counter, and the 1-based
best current leaderboard rank (`0` = not on board).  `bestRank` is a
`uint8` in the contract; stored values come from the cast `uint8(i + 1)`,
modelled as `(i + 1) % 256`. -/
structure PlayerStats where
  bestScore : Nat
  runs : Nat
  bestRank : Nat
deriving DecidableEq, Repr

/-- One leaderboard slot. -/
structure LBEntry where
  player : Nat
  score : Nat
  sessionId : Nat
  updatedAt : Nat
deriving DecidableEq, Repr

/-- The tuple covered by the attestation signature, as the contract hashes
and verifies it. -/
structure ScorePayload where
  player : Nat
  sessionId : Nat
  score : Nat
  runHash : Nat
  timeDigest : Nat
deriving DecidableEq, Repr

/-- The contract storage relevant to gameplay. -/
structure LBState where
  entryFeeWei : Nat
  serverSigner : Nat
  runs : Nat → RunState
  players : Nat → PlayerStats
  leaderboard : List LBEntry

/-- The contract's revert reasons. -/
inductive LBErr where
  | alreadyRunning
  | invalidSession
  | invalidFee
  | runFinalized
  | badAttestation
deriving DecidableEq, Repr

/-- Constant `uint8 public constant LEADERBOARD_SIZE = 25`. -/
def LEADERBOARD_SIZE : Nat := 25

/-- Point update of a storage mapping. -/
def updMap {α : Type} (m : Nat → α) (k : Nat) (v : α) : Nat → α :=
  fun q => if q = k then v else m q

/-- The `shouldSwap` comparison of `_bubbleUp`: strictly higher score, or
equal score and strictly more recent. -/
def outranksB (curr prevE : LBEntry) : Bool :=
  decide (prevE.score < curr.score) ||
    (decide (curr.score = prevE.score) && decide (prevE.updatedAt < curr.updatedAt))

/-- Model of `_bubbleUp(i)`: swap the entry at `i` upward past every entry it
outranks.  Structural recursion on the index (the JS-style `while (i > 0)`
loop decrements `i` by one per swap). -/
def bubbleUp : Nat → List LBEntry → List LBEntry
  | 0, lb => lb
  | i + 1, lb =>
    if h : i + 1 < lb.length then
      let curr := lb.get ⟨i + 1, h⟩
      let prevE := lb.get ⟨i, Nat.lt_of_le_of_lt (Nat.le_succ i) h⟩
      if outranksB curr prevE then bubbleUp i ((lb.set i curr).set (i + 1) prevE) else lb
    else lb

/-- Model of `_considerLeaderboardEntry(entry)`: below capacity push and bubble up;
at capacity compare with the last-ranked entry, rejecting or overwriting
its slot.  Returns (new board, `inserted`, dropped player or `0`). -/
def considerEntry (lb : List LBEntry) (entry : LBEntry) : List LBEntry × Bool × Nat :=
  if lb.length < LEADERBOARD_SIZE then
    (bubbleUp ((lb ++ [entry]).length - 1) (lb ++ [entry]), true, 0)
  else
    match lb.getLast? with
    | none => (lb, false, 0)
    | some tl =>
      if entry.score < tl.score then (lb, false, 0)
      else if entry.score = tl.score ∧ entry.updatedAt ≤ tl.updatedAt then (lb, false, 0)
      else (bubbleUp (lb.length - 1) (lb.set (lb.length - 1) entry), true, tl.player)

/-- First pass of `_recalculateRanks`: clear `bestRank` of every player on
the board. -/
def zeroRanks (lb : List LBEntry) (ps : Nat → PlayerStats) : Nat → PlayerStats :=
  lb.foldl (fun m e => updMap m e.player { m e.player with bestRank := 0 }) ps

/-- Second pass of `_recalculateRanks`: assign `uint8(i + 1)` at each
player's first (highest-ranked) slot, skipping players already assigned. -/
def assignRanks (pairs : List (Nat × LBEntry)) (ps : Nat → PlayerStats) : Nat → PlayerStats :=
  pairs.foldl (fun m p =>
    if (m p.2.player).bestRank = 0 then
      updMap m p.2.player { m p.2.player with bestRank := (p.1 + 1) % 256 }
    else m) ps

/-- Second then first pass of `_recalculateRanks()` combined. -/
def recalcRanks (lb : List LBEntry) (ps : Nat → PlayerStats) : Nat → PlayerStats :=
  assignRanks lb.enum (zeroRanks lb ps)

/-- Model of `startRun(sessionId)`: fee gate, fresh-session check, record the run
and count it in the caller's stats (`stats.runs += 1`; the checked `uint32`
increment would revert only after 2^32 - 1 runs). -/
def startRun (st : LBState) (sender : Nat) (value : Nat) (sessionId : Nat) :
    Except LBErr LBState :=
  if st.entryFeeWei = 0 then .error .invalidFee
  else if value ≠ st.entryFeeWei then .error .invalidFee
  else if (st.runs sessionId).player ≠ 0 then .error .alreadyRunning
  else .ok { st with
    runs := updMap st.runs sessionId { player := sender, finalized := false },
    players := updMap st.players sender
      { st.players sender with runs := (st.players sender).runs + 1 } }

/-- Model of `submitScore(payload, serverSig)`: ownership and finalization checks,
attestation verification, then finalize, update best score, fold the entry
into the leaderboard, clear the evicted player's rank, and recompute ranks
when the board changed. -/
def submitScore (recover : ScorePayload → Nat → Nat) (st : LBState) (sender : Nat)
    (timestamp : Nat) (payload : ScorePayload) (sig : Nat) : Except LBErr LBState :=
  if payload.player ≠ sender then .error .invalidSession
  else if (st.runs payload.sessionId).player ≠ sender then .error .invalidSession
  else if (st.runs payload.sessionId).finalized then .error .runFinalized
  else if st.serverSigner = 0 then .error .badAttestation
  else if recover payload sig ≠ st.serverSigner then .error .badAttestation
  else
    let runs1 := updMap st.runs payload.sessionId { player := sender, finalized := true }
    let stats := st.players sender
    let players1 := if stats.bestScore < payload.score
      then updMap st.players sender { stats with bestScore := payload.score }
      else st.players
    let cr := considerEntry st.leaderboard
      { player := sender, score := payload.score,
        sessionId := payload.sessionId, updatedAt := timestamp }
    let players2 := if cr.2.2 ≠ 0
      then updMap players1 cr.2.2 { players1 cr.2.2 with bestRank := 0 }
      else players1
    let players3 := if cr.2.1 then recalcRanks cr.1 players2 else players2
    .ok { st with runs := runs1, players := players3, leaderboard := cr.1 }

/-- Admin operation `setEntryFee` (owner-only). -/
def setEntryFee (st : LBState) (fee : Nat) : LBState := { st with entryFeeWei := fee }

/-- Admin operation `setServerSigner` (owner-only). -/
def setServerSigner (st : LBState) (signer : Nat) : LBState := { st with serverSigner := signer }

/-! ## Ranking order and specification-level insertion -/

/-- The board order: an earlier (higher-ranked) entry has a strictly higher
score, or an equal score with an at-least-as-recent update time.  This is
the reflexive closure of the `_bubbleUp` comparison. -/
def ordR (a b : LBEntry) : Prop :=
  b.score < a.score ∨ (a.score = b.score ∧ b.updatedAt ≤ a.updatedAt)

/-- Board invariant: at most 25 entries, adjacent-sorted by `ordR`. -/
def BoardInv (lb : List LBEntry) : Prop :=
  lb.length ≤ 25 ∧ lb.Pairwise ordR

/-- Specification-level insertion into the reversed (ascending) board:
walk from the bottom, passing every entry the candidate outranks. -/
def insertRevR (e : LBEntry) : List LBEntry → List LBEntry
  | [] => [e]
  | x :: xs => if outranksB e x then x :: insertRevR e xs else e :: x :: xs

/-- Specification-level equivalent of pushing `e` after `lb` and bubbling
it up from the last index. -/
def bubbleCore (lb : List LBEntry) (e : LBEntry) : List LBEntry :=
  (insertRevR e lb.reverse).reverse

/-- Whether a player occupies some board slot. -/
def onBoard (lb : List LBEntry) (p : Nat) : Bool := lb.any (fun e => e.player = p)

/-- The 1-based index of a player's first (highest-ranked) slot, `0` when
the player occupies no slot. -/
def firstRank (lb : List LBEntry) (p : Nat) : Nat :=
  match lb.enum.find? (fun q => q.2.player = p) with
  | some q => q.1 + 1
  | none => 0

/-- Rank invariant: every stored best-rank is the 1-based index of that
player's highest-ranked slot, `0` exactly when the player is absent. -/
def RankInv (st : LBState) : Prop :=
  ∀ p : Nat, (st.players p).bestRank = firstRank st.leaderboard p

/-- No board slot is held by the zero address (true of every reachable
state, since every entry's player is some `msg.sender`). -/
def NoZeroPlayers (lb : List LBEntry) : Prop := ∀ e ∈ lb, e.player ≠ 0

/-! ## Concrete data used by witnesses and counterexamples -/

/-- Shortand constructor for concrete leaderboard entries (the session id
reuses the player token). -/
def mkEntry (p sc t : Nat) : LBEntry :=
  { player := p, score := sc, sessionId := p, updatedAt := t }

/-- A concrete full board: 25 entries with distinct descending scores. -/
def boardW : List LBEntry := (List.range 25).map (fun k => mkEntry (k + 1) (100 - k) 50)

/-- Recovery function modelling a correct attester signature: it always
recovers the configured signer (token 9). -/
def recW : ScorePayload → Nat → Nat := fun _ _ => 9

/-- Fresh contract state: fee 5, signer 9, one unfinalized run for session
3 owned by player 7, empty board. -/
def stFresh : LBState :=
  { entryFeeWei := 5, serverSigner := 9,
    runs := updMap (fun _ => { player := 0, finalized := false }) 3
      { player := 7, finalized := false },
    players := fun _ => { bestScore := 0, runs := 0, bestRank := 0 },
    leaderboard := [] }

/-- Same state with session 3 already finalized. -/
def stFinal : LBState :=
  { stFresh with
    runs := updMap (fun _ => { player := 0, finalized := false }) 3
      { player := 7, finalized := true } }

/-- A concrete score payload for session 3 by player 7. -/
def payW : ScorePayload :=
  { player := 7, sessionId := 3, score := 42, runHash := 1, timeDigest := 2 }

/-- Direction cycle right, down, left, up: a closed 2x2 square tour. -/
def dirAt (k : Nat) : Vec2 :=
  match k % 4 with
  | 0 => ⟨1, 0⟩
  | 1 => ⟨0, 1⟩
  | 2 => ⟨-1, 0⟩
  | _ => ⟨0, -1⟩

/-- Head position after `k` moves of the square tour from the spawn cell. -/
def posAt (k : Nat) : Vec2 :=
  match k % 4 with
  | 0 => ⟨5, 10⟩
  | 1 => ⟨6, 10⟩
  | 2 => ⟨6, 11⟩
  | _ => ⟨5, 11⟩

/-- Generator for square-tour events: `cycFrom n k` is the list of `n`
turn events for consecutive frames `k, k+1, ...`. -/
def cycFrom : Nat → Nat → List InputEvent
  | 0, _ => []
  | n + 1, k => ⟨Int.ofNat k, dirAt k⟩ :: cycFrom n (k + 1)

/-- An input list with one turn event at every frame 0..10000, tracing the
square tour forever: the snake (length 1, never feeding) never collides, so
the replay loop only stops at the frame cap. -/
def cycleInputs : List InputEvent := cycFrom 10001 0

/-- Seed used by concrete replay runs. -/
def seedC : String := "0x01"

/-- Loop state at the top of the iteration consuming frame `m` of the
square-tour replay. -/
def cycSt (m : Nat) : SimSt :=
  { snake := [posAt m], dir := dirAt (m - 1), food := ⟨10, 10⟩,
    rngT := makeRngState seedC, score := 0, frame := m, pending := cycleInputs.drop m }

/-- Concrete heartbeat configuration for witnesses (signature checks off,
as with `HB_ALLOW_UNSIG=1`; default bounds). -/
def cfgW : HBConfig := { minBeats := 3, minMs := 150, maxMs := 1200, allowUnsig := true }

/-- Trivial beat-signature recovery used where signatures are disabled. -/
def bvW : String → Int → Int → Nat → String := fun _ _ _ _ => ""

/-- Concrete session for witnesses. -/
def sessW : Session := { seed := "0xabc", address := "0xdeadbeef", beats := [] }

/-- Concrete one-session store. -/
def storeW : String → Option Session := fun id => if id = "s1" then some sessW else none

/-- Concrete passing verification request: the submitted hash matches the
recomputation for the empty input list, and the three beats are strictly
monotonic with 200 ms intervals. -/
def reqW : VerifyReq :=
  { sessionId := "s1", address := "0xDEADbeef", score := some 0, runHash := "[]",
    inputs := [], beats := [⟨0, 1000, 0⟩, ⟨1, 1200, 0⟩, ⟨2, 1400, 0⟩] }

/-- Concrete failing request: submitted hash disagrees with recomputation. -/
def reqBad : VerifyReq := { reqW with runHash := "bogus" }

/-- The concrete response the handler produces for `reqW`: two 200 ms
intervals, and the replayed score 1 (the empty-input run crosses the
initial food cell at (10,10) while moving right). -/
def respW : VerifyResp :=
  { timeDigest := "[200,200]",
    attested := { address := "0xDEADbeef", sessionId := "s1", score := 1,
                  runHash := "[]", timeDigest := "[200,200]" },
    score := 1 }

/-! ## Sorting lemmas for the input list -/

/-- Membership in an insertion step. -/
theorem mem_insertByFrame (e a : InputEvent) (l : List InputEvent) :
    a ∈ insertByFrame e l ↔ a = e ∨ a ∈ l := by
  induction l with
  | nil => simp [insertByFrame]
  | cons x xs ih =>
    simp only [insertByFrame]
    split
    · simp [List.mem_cons]
    · simp [List.mem_cons, ih]
      tauto

/-- Insertion preserves ascending order on frame indices. -/
theorem pairwise_insertByFrame (e : InputEvent) (l : List InputEvent)
    (h : l.Pairwise (fun a b => a.f ≤ b.f)) :
    (insertByFrame e l).Pairwise (fun a b => a.f ≤ b.f) := by
  induction l with
  | nil => simp [insertByFrame]
  | cons x xs ih =>
    rw [List.pairwise_cons] at h
    simp only [insertByFrame]
    split
    · rename_i hef
      rw [List.pairwise_cons]
      refine ⟨?_, List.pairwise_cons.2 h⟩
      intro b hb
      rcases List.mem_cons.1 hb with hb | hb
      · exact hb ▸ hef
      · exact le_trans hef (h.1 b hb)
    · rename_i hef
      rw [List.pairwise_cons]
      refine ⟨?_, ih h.2⟩
      intro b hb
      rcases (mem_insertByFrame e b xs).1 hb with hb | hb
      · exact hb ▸ le_of_not_le hef
      · exact h.1 b hb

/-- The sorted copy is ascending on frame indices. -/
theorem sortInputs_sorted (l : List InputEvent) :
    (sortInputs l).Pairwise (fun a b => a.f ≤ b.f) := by
  induction l with
  | nil => exact List.Pairwise.nil
  | cons x xs ih => exact pairwise_insertByFrame x _ ih

/-- Sorting an already ascending list is the identity. -/
theorem sortInputs_of_sorted (l : List InputEvent)
    (h : l.Pairwise (fun a b => a.f ≤ b.f)) : sortInputs l = l := by
  induction l with
  | nil => rfl
  | cons x xs ih =>
    rw [List.pairwise_cons] at h
    show insertByFrame x (sortInputs xs) = x :: xs
    rw [ih h.2]
    cases xs with
    | nil => rfl
    | cons y ys => simp [insertByFrame, h.1 y (List.mem_cons_self y ys)]

/-- Sorting is idempotent. -/
theorem sortInputs_idem (l : List InputEvent) : sortInputs (sortInputs l) = sortInputs l :=
  sortInputs_of_sorted _ (sortInputs_sorted l)

/-! ## C3: what the content hash covers -/

/-- C3 (amended): the content hash produced by replay is a hash of the
serialized input event list in its *submitted* order — the replay loop
consumes a sorted copy, so the recomputed score depends only on the
order-normalized list, but the hash covers the raw list, so permutations
of the input list do not in general share a content hash. -/
theorem c3_content_hash_covers_submitted_order (inputs : List InputEvent) (seed : String) :
    (simulate inputs seed).runHash = serializeInputs inputs ∧
    ∀ inputs2 : List InputEvent, sortInputs inputs2 = sortInputs inputs →
      (simulate inputs2 seed).score = (simulate inputs seed).score := by
  refine ⟨rfl, ?_⟩
  intro inputs2 hsort
  unfold simulate simulateFinal initSimSt
  rw [hsort]

/-- Witness for C3: two permuted lists share their order-normalized form
and hence their replayed score (while their hashes differ, per the
counterexample). -/
theorem c3_content_hash_covers_submitted_order_witness :
    sortInputs [⟨1, ⟨1, 0⟩⟩, ⟨0, ⟨0, 1⟩⟩] = sortInputs [⟨0, ⟨0, 1⟩⟩, ⟨1, ⟨1, 0⟩⟩] ∧
    (simulate [⟨1, ⟨1, 0⟩⟩, ⟨0, ⟨0, 1⟩⟩] seedC).score =
      (simulate [⟨0, ⟨0, 1⟩⟩, ⟨1, ⟨1, 0⟩⟩] seedC).score :=
  ⟨by decide,
   (c3_content_hash_covers_submitted_order [⟨0, ⟨0, 1⟩⟩, ⟨1, ⟨1, 0⟩⟩] seedC).2
     [⟨1, ⟨1, 0⟩⟩, ⟨0, ⟨0, 1⟩⟩] (by decide)⟩

/-- C3 counterexample: two input lists that are permutations of each other
whose content hashes differ, refuting "for every pair of input lists that
are permutations of each other, replay yields the same content hash". -/
theorem c3_cex_permuted_inputs_distinct_hash :
    (([⟨0, ⟨0, 1⟩⟩, ⟨1, ⟨1, 0⟩⟩] : List InputEvent).Perm
      ([⟨1, ⟨1, 0⟩⟩, ⟨0, ⟨0, 1⟩⟩] : List InputEvent)) ∧
    (simulate [⟨0, ⟨0, 1⟩⟩, ⟨1, ⟨1, 0⟩⟩] seedC).runHash ≠
      (simulate [⟨1, ⟨1, 0⟩⟩, ⟨0, ⟨0, 1⟩⟩] seedC).runHash := by
  constructor
  · decide
  · decide

/-! ## C4: determinism of replay -/

/-- C4: replay is a pure, deterministic function of (seed, input list):
invocations with identical arguments yield the identical (score, content
hash) pair.  The embedding is a total function translated from a source
function with no external state (its RNG closure state is local and
seed-derived), so determinism holds by congruence. -/
theorem c4_replay_deterministic (seed1 seed2 : String) (i1 i2 : List InputEvent)
    (hseed : seed1 = seed2) (hin : i1 = i2) : simulate i1 seed1 = simulate i2 seed2 := by
  rw [hseed, hin]

/-- Witness for C4 at a concrete seed and input list. -/
theorem c4_replay_deterministic_witness :
    seedC = seedC ∧ ([⟨0, ⟨0, 1⟩⟩] : List InputEvent) = [⟨0, ⟨0, 1⟩⟩] ∧
      simulate [⟨0, ⟨0, 1⟩⟩] seedC = simulate [⟨0, ⟨0, 1⟩⟩] seedC :=
  ⟨rfl, rfl, c4_replay_deterministic seedC seedC _ _ rfl rfl⟩

/-! ## C5: termination and the frame cap -/

/-- Length of a generated event list. -/
theorem cycFrom_length (n : Nat) : ∀ k, (cycFrom n k).length = n := by
  induction n with
  | zero => intro k; rfl
  | succ n ih => intro k; simp [cycFrom, ih]

/-- Every generated event carries a frame index at least the start index. -/
theorem cycFrom_f_lb (n : Nat) : ∀ k, ∀ e ∈ cycFrom n k, Int.ofNat k ≤ e.f := by
  induction n with
  | zero => intro k e he; cases he
  | succ n ih =>
    intro k e he
    rcases List.mem_cons.1 he with he | he
    · subst he; exact le_refl _
    · exact le_trans (Int.ofNat_le.mpr (Nat.le_succ k)) (ih (k + 1) e he)

/-- Generated event lists are ascending on frame indices. -/
theorem cycFrom_sorted (n : Nat) : ∀ k, (cycFrom n k).Pairwise (fun a b => a.f ≤ b.f) := by
  induction n with
  | zero => intro k; exact List.Pairwise.nil
  | succ n ih =>
    intro k
    refine List.pairwise_cons.2 ⟨?_, ih (k + 1)⟩
    intro b hb
    exact le_trans (Int.ofNat_le.mpr (Nat.le_succ k)) (cycFrom_f_lb n (k + 1) b hb)

/-- Dropping from a generated event list shifts the start index. -/
theorem cycFrom_drop (j : Nat) : ∀ n k, j ≤ n → (cycFrom n k).drop j = cycFrom (n - j) (k + j) := by
  induction j with
  | zero => intro n k _; rw [List.drop_zero, Nat.sub_zero, Nat.add_zero]
  | succ j ih =>
    intro n k hj
    obtain ⟨n', rfl⟩ : ∃ n', n = n' + 1 := ⟨n - 1, by omega⟩
    show (cycFrom (n' + 1) k).drop (j + 1) = _
    rw [show cycFrom (n' + 1) k = ⟨Int.ofNat k, dirAt k⟩ :: cycFrom n' (k + 1) from rfl]
    rw [List.drop_succ_cons, ih n' (k + 1) (by omega)]
    congr 1
    · omega
    · omega

/-- Length of the square-tour input list. -/
theorem cycleInputs_length : cycleInputs.length = 10001 :=
  cycFrom_length 10001 0

/-- Dropping `m ≤ 10000` events exposes the event for frame `m`. -/
theorem cycleInputs_drop (m : Nat) (hm : m ≤ 10000) :
    cycleInputs.drop m = ⟨Int.ofNat m, dirAt m⟩ :: cycleInputs.drop (m + 1) := by
  show (cycFrom 10001 0).drop m = ⟨Int.ofNat m, dirAt m⟩ :: (cycFrom 10001 0).drop (m + 1)
  rw [cycFrom_drop m 10001 0 (by omega)]
  rw [cycFrom_drop (m + 1) 10001 0 (by omega)]
  rw [show (10001 : Nat) - m = (10001 - (m + 1)) + 1 from by omega]
  rw [show cycFrom ((10001 - (m + 1)) + 1) (0 + m) =
    ⟨Int.ofNat (0 + m), dirAt (0 + m)⟩ :: cycFrom (10001 - (m + 1)) (0 + m + 1) from rfl]
  simp only [Nat.zero_add]

/-- The square-tour list is ascending on frame indices. -/
theorem cycleInputs_sorted : cycleInputs.Pairwise (fun a b => a.f ≤ b.f) :=
  cycFrom_sorted 10001 0

/-- Sorting leaves the square-tour list unchanged. -/
theorem sortInputs_cycleInputs : sortInputs cycleInputs = cycleInputs :=
  sortInputs_of_sorted _ cycleInputs_sorted

/-- No event of the square tour reverses directly into the previous
direction, so every turn is applied. -/
theorem dirAt_not_reverse (m : Nat) :
    ¬((dirAt m).x = -(dirAt (m - 1)).x ∧ (dirAt m).y = -(dirAt (m - 1)).y) := by
  cases m with
  | zero => decide
  | succ m =>
    have h4 : m % 4 = 0 ∨ m % 4 = 1 ∨ m % 4 = 2 ∨ m % 4 = 3 := by omega
    have hs : (m + 1) % 4 = (m % 4 + 1) % 4 := by omega
    rcases h4 with h | h | h | h <;>
      simp only [Nat.succ_sub_one, dirAt, hs, h] <;> decide

/-- One move of the square tour. -/
theorem posAt_step (m : Nat) :
    (⟨(posAt m).x + (dirAt m).x, (posAt m).y + (dirAt m).y⟩ : Vec2) = posAt (m + 1) := by
  have h4 : m % 4 = 0 ∨ m % 4 = 1 ∨ m % 4 = 2 ∨ m % 4 = 3 := by omega
  have hs : (m + 1) % 4 = (m % 4 + 1) % 4 := by omega
  rcases h4 with h | h | h | h <;>
    simp only [posAt, dirAt, hs, h] <;> decide

/-- Component version of `posAt_step` for the x coordinate. -/
theorem posAt_step_x (m : Nat) : (posAt m).x + (dirAt m).x = (posAt (m + 1)).x :=
  congrArg Vec2.x (posAt_step m)

/-- Component version of `posAt_step` for the y coordinate. -/
theorem posAt_step_y (m : Nat) : (posAt m).y + (dirAt m).y = (posAt (m + 1)).y :=
  congrArg Vec2.y (posAt_step m)

/-- Square-tour cells never collide with the wall or the length-one body. -/
theorem collideB_posAt (j k : Nat) : collideB (posAt k) [posAt j] = false := by
  have h4 : k % 4 = 0 ∨ k % 4 = 1 ∨ k % 4 = 2 ∨ k % 4 = 3 := by omega
  rcases h4 with h | h | h | h <;> simp [collideB, posAt, GRID, h]

/-- Square-tour cells never land on the initial food cell. -/
theorem posAt_ne_food (k : Nat) :
    ¬((posAt k).x = (10 : Int) ∧ (posAt k).y = (10 : Int)) := by
  have h4 : k % 4 = 0 ∨ k % 4 = 1 ∨ k % 4 = 2 ∨ k % 4 = 3 := by omega
  rcases h4 with h | h | h | h <;> simp [posAt, h]

/-- Unfolding: a queued event matching the current frame is consumed,
updating the direction when it is not a direct reversal. -/
theorem applyInputs_cons_eq (e : InputEvent) (rest : List InputEvent) (frame : Int) (dir : Vec2)
    (hf : e.f = frame) (hrev : ¬(e.d.x = -dir.x ∧ e.d.y = -dir.y)) :
    applyInputs (e :: rest) frame dir = applyInputs rest frame e.d := by
  simp only [applyInputs, if_pos hf, if_neg hrev]

/-- Unfolding: a queued event for a later frame stops the inner loop. -/
theorem applyInputs_cons_ne (e : InputEvent) (rest : List InputEvent) (frame : Int) (dir : Vec2)
    (hf : ¬(e.f = frame)) : applyInputs (e :: rest) frame dir = (dir, e :: rest) := by
  simp only [applyInputs, if_neg hf]

/-- Consuming the square tour's inputs at frame `m`: exactly the one event
for frame `m` applies, and it sets the direction to `dirAt m`. -/
theorem applyInputs_cyc (m : Nat) (hm : m ≤ 10000) :
    applyInputs (cycleInputs.drop m) (Int.ofNat m) (dirAt (m - 1)) =
      (dirAt m, cycleInputs.drop (m + 1)) := by
  rw [cycleInputs_drop m hm]
  rw [applyInputs_cons_eq _ _ _ _ rfl (dirAt_not_reverse m)]
  by_cases h : m + 1 ≤ 10000
  · rw [cycleInputs_drop (m + 1) h]
    rw [applyInputs_cons_ne _ _ _ _ (fun hc => Nat.succ_ne_self m (Int.ofNat.inj hc))]
  · have hm' : m = 10000 := by omega
    subst hm'
    rw [List.drop_eq_nil_of_le (le_of_eq cycleInputs_length)]
    rfl

/-- Projection of the tour state: pending events. -/
theorem cycSt_pending (m : Nat) : (cycSt m).pending = cycleInputs.drop m := rfl

/-- Projection of the tour state: direction. -/
theorem cycSt_dir (m : Nat) : (cycSt m).dir = dirAt (m - 1) := rfl

/-- Projection of the tour state: snake body. -/
theorem cycSt_snake (m : Nat) : (cycSt m).snake = [posAt m] := rfl

/-- Projection of the tour state: frame counter. -/
theorem cycSt_frame (m : Nat) : (cycSt m).frame = m := rfl

/-- Projection of the tour state: food cell. -/
theorem cycSt_food (m : Nat) : (cycSt m).food = ⟨10, 10⟩ := rfl

/-- Projection of the tour state: score. -/
theorem cycSt_score (m : Nat) : (cycSt m).score = 0 := rfl

/-- Projection of the tour state: RNG state. -/
theorem cycSt_rngT (m : Nat) : (cycSt m).rngT = makeRngState seedC := rfl

/-- One full loop iteration of the square-tour replay below the cap. -/
theorem stepCyc (fuel m : Nat) (hm : m < 10000) :
    simLoop (fuel + 1) (cycSt m) = simLoop fuel (cycSt (m + 1)) := by
  have hap := applyInputs_cyc m (by omega : m ≤ 10000)
  simp only [simLoop, cycSt_pending, cycSt_dir, cycSt_snake, cycSt_frame, cycSt_food,
    cycSt_score, cycSt_rngT, hap, List.headD_cons, posAt_step, posAt_step_x, posAt_step_y]
  rw [if_neg (by rw [collideB_posAt m (m + 1)]; exact Bool.false_ne_true)]
  rw [if_neg (posAt_ne_food (m + 1))]
  rw [if_neg (by omega : ¬(m + 1 > 10000))]
  rfl

/-- The last iteration of the square-tour replay: the cap check fires with
the frame counter at 10001. -/
theorem endCyc (fuel m : Nat) (hm : m = 10000) :
    (simLoop (fuel + 1) (cycSt m)).frame = 10001 := by
  have hap := applyInputs_cyc m (by omega)
  simp only [simLoop, cycSt_pending, cycSt_dir, cycSt_snake, cycSt_frame, cycSt_food,
    cycSt_score, cycSt_rngT, hap, List.headD_cons, posAt_step, posAt_step_x, posAt_step_y]
  rw [if_neg (by rw [collideB_posAt m (m + 1)]; exact Bool.false_ne_true)]
  rw [if_neg (posAt_ne_food (m + 1))]
  rw [if_pos (by omega : m + 1 > 10000)]
  show m + 1 = 10001
  omega

/-- Chaining the square-tour iterations from frame `m` to the cap. -/
theorem runCyc : ∀ j fuel m : Nat, m + j = 10000 → j < fuel →
    (simLoop fuel (cycSt m)).frame = 10001 := by
  intro j
  induction j with
  | zero =>
    intro fuel m hm hf
    obtain ⟨f, rfl⟩ : ∃ f, fuel = f + 1 := ⟨fuel - 1, by omega⟩
    exact endCyc f m (by omega)
  | succ j ih =>
    intro fuel m hm hf
    obtain ⟨f, rfl⟩ : ∃ f, fuel = f + 1 := ⟨fuel - 1, by omega⟩
    rw [stepCyc f m (by omega)]
    exact ih f (m + 1) (by omega) (by omega)

/-- The initial replay state of the square tour is the tour state at 0. -/
theorem cycSt_zero : cycSt 0 = initSimSt cycleInputs seedC := by
  have e1 : cycSt 0 =
      ({ snake := [posAt 0], dir := dirAt 0, food := ⟨10, 10⟩, rngT := makeRngState seedC,
         score := 0, frame := 0, pending := cycleInputs.drop 0 } : SimSt) := rfl
  have e2 : initSimSt cycleInputs seedC =
      ({ snake := [⟨5, 10⟩], dir := ⟨1, 0⟩, food := ⟨10, 10⟩, rngT := makeRngState seedC,
         score := 0, frame := 0, pending := sortInputs cycleInputs } : SimSt) := rfl
  rw [e1, e2, List.drop_zero, sortInputs_of_sorted _ cycleInputs_sorted]
  have e3 : posAt 0 = (⟨5, 10⟩ : Vec2) := rfl
  have e4 : dirAt 0 = (⟨1, 0⟩ : Vec2) := rfl
  rw [e3, e4]

/-- C5 counterexample: the square-tour replay executes 10001 frames, one
more than the claimed hard cap of 10000 — the `frame > 10000` check runs
only after the frame has executed. -/
theorem c5_cex_replay_executes_10001_frames :
    (simulateFinal cycleInputs seedC).frame = 10001 ∧ 10000 < (simulateFinal cycleInputs seedC).frame := by
  have h : (simulateFinal cycleInputs seedC).frame = 10001 := by
    show (simLoop FRAME_FUEL (initSimSt cycleInputs seedC)).frame = 10001
    rw [← cycSt_zero]
    exact runCyc 10000 FRAME_FUEL 0 (by omega) (by rw [show FRAME_FUEL = 10002 from rfl]; omega)
  exact ⟨h, by omega⟩

/-- Upper bound: from any state below the cap, the loop's final frame
counter is at most 10001. -/
theorem simLoop_frame_le (fuel : Nat) :
    ∀ st : SimSt, st.frame ≤ 10000 → (simLoop fuel st).frame ≤ 10001 := by
  induction fuel with
  | zero => intro st h; exact le_trans h (by omega)
  | succ fuel ih =>
    intro st h
    simp only [simLoop]
    split
    · show st.frame + 1 ≤ 10001
      omega
    · split
      · rename_i hcap
        split
        · show st.frame + 1 ≤ 10001
          omega
        · show st.frame + 1 ≤ 10001
          omega
      · rename_i hcap
        split
        · exact ih _ (by show st.frame + 1 ≤ 10000; omega)
        · exact ih _ (by show st.frame + 1 ≤ 10000; omega)

/-- Fuel irrelevance: any fuel beyond the remaining frame budget computes
the same final state — the loop terminates within the cap. -/
theorem simLoop_fuel_stable : ∀ f1 f2 : Nat, ∀ st : SimSt, st.frame ≤ 10000 →
    10000 - st.frame < f1 → 10000 - st.frame < f2 → simLoop f1 st = simLoop f2 st := by
  intro f1
  induction f1 with
  | zero => intro f2 st _ h1 _; omega
  | succ f1 ih =>
    intro f2 st hst h1 h2
    obtain ⟨g, rfl⟩ : ∃ g, f2 = g + 1 := ⟨f2 - 1, by omega⟩
    simp only [simLoop]
    split
    · rfl
    · split
      · rfl
      · rename_i hcap
        split
        · exact ih g _ (by show st.frame + 1 ≤ 10000; omega)
            (by show 10000 - (st.frame + 1) < f1; omega)
            (by show 10000 - (st.frame + 1) < g; omega)
        · exact ih g _ (by show st.frame + 1 ≤ 10000; omega)
            (by show 10000 - (st.frame + 1) < f1; omega)
            (by show 10000 - (st.frame + 1) < g; omega)

/-- C5 (amended): replay terminates for every seed and input list, and
executes at most 10001 frames — frame indices 0 through 10000 inclusive:
the loop stops at the first terminal collision or once the frame counter
exceeds 10000, whichever comes first.  The second conjunct shows the
modelling fuel is irrelevant beyond `FRAME_FUEL`: the source's unbounded
`while (true)` loop is guaranteed to exit within the cap. -/
theorem c5_replay_terminates_within_cap (inputs : List InputEvent) (seed : String) :
    (simulateFinal inputs seed).frame ≤ 10001 ∧
    ∀ fuel : Nat, FRAME_FUEL ≤ fuel →
      simLoop fuel (initSimSt inputs seed) = simulateFinal inputs seed := by
  constructor
  · exact simLoop_frame_le FRAME_FUEL (initSimSt inputs seed) (by show (0 : Nat) ≤ 10000; omega)
  · intro fuel hf
    exact simLoop_fuel_stable fuel FRAME_FUEL (initSimSt inputs seed)
      (by show (0 : Nat) ≤ 10000; omega)
      (by show 10000 - (0 : Nat) < fuel; rw [show FRAME_FUEL = 10002 from rfl] at hf; omega)
      (by show 10000 - (0 : Nat) < FRAME_FUEL; rw [show FRAME_FUEL = 10002 from rfl]; omega)

/-- Witness for C5 at a concrete seed, input list and fuel. -/
theorem c5_replay_terminates_within_cap_witness :
    (simulateFinal [] seedC).frame ≤ 10001 ∧
      simLoop 10003 (initSimSt [] seedC) = simulateFinal [] seedC :=
  ⟨(c5_replay_terminates_within_cap [] seedC).1,
   (c5_replay_terminates_within_cap [] seedC).2 10003
     (by rw [show FRAME_FUEL = 10002 from rfl]; omega)⟩

/-! ## C1, C2: the `/verify-run` handler -/

/-- C1: on every successful verification of a known session, both the score
in the signed attested tuple and the score field of the response equal the
score recomputed by replaying (seed, input list); and the client-submitted
score never influences the handler's result at all. -/
theorem c1_attested_score_is_recomputed (c : HBConfig) (bv : String → Int → Int → Nat → String)
    (signerAddr : String) (store : String → Option Session) (r : VerifyReq) (s : Session)
    (resp : VerifyResp) (hs : store r.sessionId = some s)
    (hok : verifyRun c bv signerAddr store r = Except.ok resp) :
    resp.score = (simulate r.inputs s.seed).score ∧
    resp.attested.score = (simulate r.inputs s.seed).score ∧
    ∀ sc : Option Int, verifyRun c bv signerAddr store { r with score := sc } =
      verifyRun c bv signerAddr store r := by
  have h3 : ∀ sc : Option Int, verifyRun c bv signerAddr store { r with score := sc } =
      verifyRun c bv signerAddr store r := fun _ => rfl
  unfold verifyRun at hok
  simp only [hs] at hok
  split at hok
  · exact Except.noConfusion hok
  · split at hok
    · exact Except.noConfusion hok
    · split at hok
      · exact Except.noConfusion hok
      · split at hok
        · exact Except.noConfusion hok
        · injection hok with h
          subst h
          exact ⟨rfl, rfl, h3⟩

/-- Witness for C1: the concrete passing request verifies and its attested
score is the replayed one. -/
theorem c1_attested_score_is_recomputed_witness :
    verifyRun cfgW bvW "" storeW reqW = Except.ok respW ∧
      respW.score = (simulate reqW.inputs sessW.seed).score ∧
      respW.attested.score = (simulate reqW.inputs sessW.seed).score := by
  have hval : verifyRun cfgW bvW "" storeW reqW = Except.ok respW := by rfl
  have h := c1_attested_score_is_recomputed cfgW bvW "" storeW reqW sessW respW rfl hval
  exact ⟨hval, h.1, h.2.1⟩

/-- C2: whenever the recomputed content hash differs from the submitted one
(for whatever session the store resolves), verification rejects with a
reason and returns no attestation — regardless of the submitted score,
which the handler never reads. -/
theorem c2_hash_mismatch_rejects (c : HBConfig) (bv : String → Int → Int → Nat → String)
    (signerAddr : String) (store : String → Option Session) (r : VerifyReq)
    (hmm : ∀ s : Session, store r.sessionId = some s →
      (simulate r.inputs s.seed).runHash ≠ r.runHash) :
    ∃ e : VerifyErr, verifyRun c bv signerAddr store r = Except.error e := by
  unfold verifyRun
  cases hst : store r.sessionId with
  | none => exact ⟨.badSession, rfl⟩
  | some s =>
    simp only [hst]
    split
    · exact ⟨.addressMismatch, rfl⟩
    · rw [if_pos (hmm s hst)]
      exact ⟨.mismatch, rfl⟩

/-- Witness for C2: the concrete request with a bogus submitted hash is
rejected. -/
theorem c2_hash_mismatch_rejects_witness :
    ∃ e : VerifyErr, verifyRun cfgW bvW "" storeW reqBad = Except.error e := by
  refine c2_hash_mismatch_rejects cfgW bvW "" storeW reqBad ?_
  intro s hs
  rw [show storeW reqBad.sessionId = some sessW from rfl] at hs
  injection hs with hs
  subst hs
  decide

/-! ## Leaderboard ordering lemmas -/

/-- Failing the `shouldSwap` comparison means the other entry ranks at
least as high. -/
theorem outranksB_false_iff (e x : LBEntry) : outranksB e x = false ↔ ordR x e := by
  simp only [outranksB, ordR, Bool.or_eq_false_iff, Bool.and_eq_false_iff,
    decide_eq_false_iff_not, not_lt]
  omega

/-- Passing the `shouldSwap` comparison implies ranking at least as high. -/
theorem outranksB_true_ordR (e x : LBEntry) (h : outranksB e x = true) : ordR e x := by
  simp only [outranksB, Bool.or_eq_true, Bool.and_eq_true, decide_eq_true_eq] at h
  unfold ordR
  omega

/-- The board order is transitive. -/
theorem ordR_trans (a b c : LBEntry) (h1 : ordR a b) (h2 : ordR b c) : ordR a c := by
  unfold ordR at *
  omega

/-- Membership after specification-level insertion. -/
theorem mem_insertRevR (e a : LBEntry) (l : List LBEntry) :
    a ∈ insertRevR e l ↔ a = e ∨ a ∈ l := by
  induction l with
  | nil => simp [insertRevR]
  | cons x xs ih =>
    simp only [insertRevR]
    split
    · simp [List.mem_cons, ih]
      tauto
    · simp [List.mem_cons]

/-- Specification-level insertion permutes a cons. -/
theorem perm_insertRevR (e : LBEntry) (l : List LBEntry) : (insertRevR e l).Perm (e :: l) := by
  induction l with
  | nil => exact List.Perm.refl _
  | cons x xs ih =>
    simp only [insertRevR]
    split
    · exact (ih.cons x).trans (List.Perm.swap e x xs)
    · exact List.Perm.refl _

/-- Specification-level insertion preserves the ascending (reversed-board)
order. -/
theorem pairwise_insertRevR (e : LBEntry) (l : List LBEntry)
    (h : l.Pairwise (fun a b => ordR b a)) :
    (insertRevR e l).Pairwise (fun a b => ordR b a) := by
  induction l with
  | nil => simp [insertRevR]
  | cons x xs ih =>
    rw [List.pairwise_cons] at h
    simp only [insertRevR]
    split
    · rename_i hout
      rw [List.pairwise_cons]
      refine ⟨?_, ih h.2⟩
      intro b hb
      rcases (mem_insertRevR e b xs).1 hb with hb | hb
      · exact hb ▸ outranksB_true_ordR e x hout
      · exact h.1 b hb
    · rename_i hout
      have hxe : ordR x e := (outranksB_false_iff e x).1 (Bool.not_eq_true _ ▸ eq_false_of_ne_true hout)
      rw [List.pairwise_cons]
      refine ⟨?_, List.pairwise_cons.2 h⟩
      intro b hb
      rcases List.mem_cons.1 hb with hb | hb
      · exact hb ▸ hxe
      · exact ordR_trans b x e (h.1 b hb) hxe

/-- The bubbled board permutes the candidate consed onto the old board. -/
theorem bubbleCore_perm (lb : List LBEntry) (e : LBEntry) :
    (bubbleCore lb e).Perm (e :: lb) := by
  unfold bubbleCore
  exact ((insertRevR e lb.reverse).reverse_perm.trans (perm_insertRevR e lb.reverse)).trans
    ((lb.reverse_perm).cons e)

/-- The bubbled board is sorted whenever the old board is. -/
theorem bubbleCore_sorted (lb : List LBEntry) (e : LBEntry) (h : lb.Pairwise ordR) :
    (bubbleCore lb e).Pairwise ordR := by
  unfold bubbleCore
  rw [List.pairwise_reverse]
  refine pairwise_insertRevR e lb.reverse ?_
  rw [List.pairwise_reverse]
  exact h

/-- Setting the slot right after a prefix. -/
theorem set_after_append (A : List LBEntry) (l : List LBEntry) (v : LBEntry) :
    (A ++ l).set A.length v = A ++ l.set 0 v := by
  rw [List.set_append, if_neg (lt_irrefl _), Nat.sub_self]

/-- Setting the slot one past a prefix. -/
theorem set_after_append_succ (A : List LBEntry) (l : List LBEntry) (v : LBEntry) :
    (A ++ l).set (A.length + 1) v = A ++ l.set 1 v := by
  rw [List.set_append, if_neg (by omega), Nat.add_sub_cancel_left]

/-- Reading the slot right after a prefix. -/
theorem get_after_append (A : List LBEntry) (x : LBEntry) (l : List LBEntry) :
    ∀ h : A.length < (A ++ x :: l).length, (A ++ x :: l).get ⟨A.length, h⟩ = x := by
  induction A with
  | nil => intro h; rfl
  | cons a A ih =>
    intro h
    have h' : A.length < (A ++ x :: l).length := by
      simp only [List.length_cons, List.length_append] at h ⊢
      omega
    exact ih h'

/-- Reading the slot one past a prefix. -/
theorem get_after_append_succ (A : List LBEntry) (x y : LBEntry) (l : List LBEntry) :
    ∀ h : A.length + 1 < (A ++ x :: y :: l).length,
      (A ++ x :: y :: l).get ⟨A.length + 1, h⟩ = y := by
  induction A with
  | nil => intro h; rfl
  | cons a A ih =>
    intro h
    have h' : A.length + 1 < (A ++ x :: y :: l).length := by
      simp only [List.length_cons, List.length_append] at h ⊢
      omega
    exact ih h'

/-- `_bubbleUp` from the index just past `A` equals the specification-level
insertion of `e` into `A`, leaving the suffix `B` untouched (the loop never
reads past its starting index). -/
theorem bubbleUp_eq_core (e : LBEntry) (A : List LBEntry) :
    ∀ B : List LBEntry, bubbleUp A.length (A ++ e :: B) = bubbleCore A e ++ B := by
  induction A using List.reverseRecOn with
  | nil => intro B; rfl
  | append_singleton A x ih =>
    intro B
    rw [List.length_append, List.append_assoc]
    show bubbleUp (A.length + 1) (A ++ x :: e :: B) = bubbleCore (A ++ [x]) e ++ B
    have hlen : A.length + 1 < (A ++ x :: e :: B).length := by
      rw [List.length_append]
      simp only [List.length_cons]
      omega
    simp only [bubbleUp]
    rw [dif_pos hlen]
    rw [get_after_append_succ A x e B hlen, get_after_append A x (e :: B)
      (Nat.lt_of_le_of_lt (Nat.le_succ _) hlen)]
    have hcore : bubbleCore (A ++ [x]) e = (insertRevR e (x :: A.reverse)).reverse := by
      unfold bubbleCore
      rw [List.reverse_append]
      rfl
    by_cases hout : outranksB e x = true
    · rw [if_pos hout]
      rw [set_after_append A (x :: e :: B) e, List.set_cons_zero,
        set_after_append_succ A (e :: e :: B) x, List.set_cons_succ, List.set_cons_zero]
      rw [ih (x :: B)]
      rw [hcore]
      simp only [insertRevR]
      rw [if_pos hout, List.reverse_cons, List.append_assoc]
      rfl
    · rw [if_neg hout]
      rw [hcore]
      simp only [insertRevR]
      rw [if_neg hout]
      rw [List.reverse_cons, List.reverse_cons, List.reverse_reverse]
      simp [List.append_assoc]

/-! ## Characterizing `_considerLeaderboardEntry` -/

/-- Overwriting the last slot splits the board into its front and the new
entry. -/
theorem set_last_eq (lb : List LBEntry) (e : LBEntry) (hne : lb ≠ []) :
    lb.set (lb.length - 1) e = lb.dropLast ++ [e] := by
  conv_lhs => rw [← List.dropLast_append_getLast hne]
  have hl : (lb.dropLast ++ [lb.getLast hne]).length - 1 = lb.dropLast.length := by
    rw [List.length_append]
    simp
  rw [hl, set_after_append, List.set_cons_zero]

/-- Below capacity, the candidate is always inserted and no one is
evicted. -/
theorem considerEntry_below (lb : List LBEntry) (e : LBEntry) (h : lb.length < 25) :
    considerEntry lb e = (bubbleCore lb e, true, 0) := by
  unfold considerEntry
  rw [if_pos (show lb.length < LEADERBOARD_SIZE from h)]
  have hl : (lb ++ [e]).length - 1 = lb.length := by
    rw [List.length_append]
    simp
  rw [hl]
  have hb := bubbleUp_eq_core e lb []
  rw [List.append_nil] at hb
  rw [hb]

/-- At capacity, the candidate is compared against the last-ranked entry:
rejected when strictly worse (or tied and not strictly more recent),
otherwise it overwrites the minimum's slot, is bubbled upward, and the
previous occupant is reported evicted. -/
theorem considerEntry_at_cap (lb : List LBEntry) (e tl : LBEntry)
    (hlen : ¬(lb.length < 25)) (htl : lb.getLast? = some tl) :
    considerEntry lb e =
      if e.score < tl.score then (lb, false, 0)
      else if e.score = tl.score ∧ e.updatedAt ≤ tl.updatedAt then (lb, false, 0)
      else (bubbleCore lb.dropLast e, true, tl.player) := by
  have hne : lb ≠ [] := by
    intro h0
    rw [h0] at hlen
    exact hlen (by norm_num)
  unfold considerEntry
  rw [if_neg (show ¬(lb.length < LEADERBOARD_SIZE) from hlen)]
  simp only [htl]
  by_cases h1 : e.score < tl.score
  · rw [if_pos h1, if_pos h1]
  · rw [if_neg h1, if_neg h1]
    by_cases h2 : e.score = tl.score ∧ e.updatedAt ≤ tl.updatedAt
    · rw [if_pos h2, if_pos h2]
    · rw [if_neg h2, if_neg h2]
      rw [set_last_eq lb e hne]
      have hb := bubbleUp_eq_core e lb.dropLast []
      rw [List.append_nil] at hb
      rw [show lb.length - 1 = lb.dropLast.length from (List.length_dropLast lb).symm, hb]

/-- Rejected candidates leave everything unchanged. -/
theorem considerEntry_not_inserted (lb : List LBEntry) (e : LBEntry)
    (h : (considerEntry lb e).2.1 = false) : considerEntry lb e = (lb, false, 0) := by
  by_cases hc : lb.length < 25
  · rw [considerEntry_below lb e hc] at h ⊢
    exact Bool.noConfusion h
  · have hne : lb ≠ [] := by
      intro h0
      rw [h0] at hc
      exact hc (by norm_num)
    obtain ⟨tl, htl⟩ : ∃ tl, lb.getLast? = some tl :=
      ⟨lb.getLast hne, List.getLast?_eq_getLast lb hne⟩
    rw [considerEntry_at_cap lb e tl hc htl] at h ⊢
    split at h
    · rw [if_pos (by assumption)]
    · split at h
      · rw [if_neg (by assumption), if_pos (by assumption)]
      · exact Bool.noConfusion h

/-- `_considerLeaderboardEntry` preserves the board invariant. -/
theorem considerEntry_inv (lb : List LBEntry) (e : LBEntry) (h : BoardInv lb) :
    BoardInv (considerEntry lb e).1 := by
  obtain ⟨hlen, hsort⟩ := h
  by_cases hc : lb.length < 25
  · rw [considerEntry_below lb e hc]
    refine ⟨?_, bubbleCore_sorted lb e hsort⟩
    show (bubbleCore lb e).length ≤ 25
    rw [(bubbleCore_perm lb e).length_eq]
    simp only [List.length_cons]
    omega
  · have hne : lb ≠ [] := by
      intro h0
      rw [h0] at hc
      exact hc (by norm_num)
    obtain ⟨tl, htl⟩ : ∃ tl, lb.getLast? = some tl :=
      ⟨lb.getLast hne, List.getLast?_eq_getLast lb hne⟩
    rw [considerEntry_at_cap lb e tl hc htl]
    split
    · exact ⟨hlen, hsort⟩
    · split
      · exact ⟨hlen, hsort⟩
      · constructor
        · show (bubbleCore lb.dropLast e).length ≤ 25
          rw [(bubbleCore_perm _ _).length_eq]
          simp only [List.length_cons, List.length_dropLast]
          omega
        · exact bubbleCore_sorted _ e
            (List.Pairwise.sublist (List.dropLast_sublist lb) hsort)

/-- In a sorted board, of two entries with equal scores the one with the
strictly later update time sits strictly higher. -/
theorem sorted_tie_break (lb : List LBEntry) (hs : lb.Pairwise ordR) :
    ∀ i j (hi : i < lb.length) (hj : j < lb.length), i < j →
      (lb.get ⟨i, hi⟩).score = (lb.get ⟨j, hj⟩).score →
      (lb.get ⟨j, hj⟩).updatedAt ≤ (lb.get ⟨i, hi⟩).updatedAt := by
  intro i j hi hj hij hscore
  have h := List.pairwise_iff_get.1 hs ⟨i, hi⟩ ⟨j, hj⟩ hij
  unfold ordR at h
  omega

/-- Extraction: a successful `submitScore` stores the considered board. -/
theorem submitScore_ok_board (recover : ScorePayload → Nat → Nat) (st : LBState)
    (sender ts : Nat) (payload : ScorePayload) (sig : Nat) (st' : LBState)
    (hok : submitScore recover st sender ts payload sig = Except.ok st') :
    st'.leaderboard = (considerEntry st.leaderboard
      { player := sender, score := payload.score,
        sessionId := payload.sessionId, updatedAt := ts }).1 := by
  unfold submitScore at hok
  split at hok
  · exact Except.noConfusion hok
  · split at hok
    · exact Except.noConfusion hok
    · split at hok
      · exact Except.noConfusion hok
      · split at hok
        · exact Except.noConfusion hok
        · split at hok
          · exact Except.noConfusion hok
          · injection hok with h
            subst h
            rfl

/-! ## C6: the leaderboard collection invariant -/

/-- C6: the leaderboard invariant — at most 25 entries, sorted by score
descending with ties broken by last-updated time descending (an entry with
an equal score and a strictly later time occupies a strictly higher rank) —
holds of the initial empty board and is preserved by every successful
`submitScore`. -/
theorem c6_leaderboard_sorted_bounded (recover : ScorePayload → Nat → Nat) (st : LBState)
    (sender ts : Nat) (payload : ScorePayload) (sig : Nat) (st' : LBState)
    (hInv : BoardInv st.leaderboard)
    (hok : submitScore recover st sender ts payload sig = Except.ok st') :
    BoardInv st'.leaderboard ∧
    (∀ i j (hi : i < st'.leaderboard.length) (hj : j < st'.leaderboard.length), i < j →
      (st'.leaderboard.get ⟨i, hi⟩).score = (st'.leaderboard.get ⟨j, hj⟩).score →
      (st'.leaderboard.get ⟨j, hj⟩).updatedAt ≤ (st'.leaderboard.get ⟨i, hi⟩).updatedAt) ∧
    BoardInv [] := by
  have hb := submitScore_ok_board recover st sender ts payload sig st' hok
  have hinv' : BoardInv st'.leaderboard := by
    rw [hb]
    exact considerEntry_inv _ _ hInv
  exact ⟨hinv', sorted_tie_break st'.leaderboard hinv'.2,
    by norm_num, List.Pairwise.nil⟩

/-- Witness for C6: a concrete submission into the fresh state keeps the
invariant. -/
theorem c6_leaderboard_sorted_bounded_witness :
    BoardInv stFresh.leaderboard ∧
    ∃ st', submitScore recW stFresh 7 100 payW 0 = Except.ok st' ∧
      BoardInv st'.leaderboard := by
  have hInv : BoardInv stFresh.leaderboard := ⟨by decide, List.Pairwise.nil⟩
  obtain ⟨st', h⟩ : ∃ st', submitScore recW stFresh 7 100 payW 0 = Except.ok st' := ⟨_, rfl⟩
  exact ⟨hInv, st', h,
    (c6_leaderboard_sorted_bounded recW stFresh 7 100 payW 0 st' hInv h).1⟩

/-! ## C7: the at-capacity insertion policy -/

/-- C7: with the board at capacity, a candidate is rejected (leaving the
board unchanged) exactly when its score is strictly below the last-ranked
entry's, or the scores tie and the candidate is not strictly more recent;
otherwise it is inserted in the minimum's place — the new board permutes
the candidate with the 24 surviving entries — and the previous occupant of
that slot is reported evicted. -/
theorem c7_at_capacity_policy (lb : List LBEntry) (e tl : LBEntry)
    (hlen : lb.length = 25) (htl : lb.getLast? = some tl) :
    (((considerEntry lb e).2.1 = false ∧ (considerEntry lb e).1 = lb) ↔
      (e.score < tl.score ∨ (e.score = tl.score ∧ e.updatedAt ≤ tl.updatedAt))) ∧
    (¬(e.score < tl.score ∨ (e.score = tl.score ∧ e.updatedAt ≤ tl.updatedAt)) →
      (considerEntry lb e).2.1 = true ∧ (considerEntry lb e).2.2 = tl.player ∧
      (considerEntry lb e).1.Perm (e :: lb.dropLast)) := by
  have hc := considerEntry_at_cap lb e tl (by omega) htl
  constructor
  · constructor
    · intro hf
      by_cases h1 : e.score < tl.score
      · exact Or.inl h1
      · by_cases h2 : e.score = tl.score ∧ e.updatedAt ≤ tl.updatedAt
        · exact Or.inr h2
        · rw [hc, if_neg h1, if_neg h2] at hf
          exact Bool.noConfusion hf.1
    · intro hrej
      rw [hc]
      by_cases h1 : e.score < tl.score
      · rw [if_pos h1]
        exact ⟨rfl, rfl⟩
      · have h2 : e.score = tl.score ∧ e.updatedAt ≤ tl.updatedAt := by tauto
        rw [if_neg h1, if_pos h2]
        exact ⟨rfl, rfl⟩
  · intro hacc
    rw [hc, if_neg (fun h => hacc (Or.inl h)), if_neg (fun h => hacc (Or.inr h))]
    exact ⟨rfl, rfl, bubbleCore_perm _ _⟩

/-- Witness for C7: a candidate beating the minimum of a concrete full
board is inserted and evicts the minimum's player. -/
theorem c7_at_capacity_policy_witness :
    boardW.length = 25 ∧ boardW.getLast? = some (mkEntry 25 76 50) ∧
    (considerEntry boardW (mkEntry 99 90 60)).2.1 = true ∧
    (considerEntry boardW (mkEntry 99 90 60)).2.2 = 25 := by
  have h := (c7_at_capacity_policy boardW (mkEntry 99 90 60) (mkEntry 25 76 50)
    (by decide) (by decide)).2 (by decide)
  refine ⟨by decide, by decide, h.1, ?_⟩
  rw [h.2.1]
  rfl

/-! ## C8: at-most-once finalization -/

/-- C8: a run is finalized at most once.  For an already-finalized session,
every `submitScore` call rejects — for every possible signature-recovery
function, hence even with a correct attester signature — and, the rejection
being a revert, leaves the run record, player stats and leaderboard
unchanged.  Conversely every accepted submission starts from an
unfinalized run record and marks it finalized. -/
theorem c8_finalized_once (recover : ScorePayload → Nat → Nat) (st : LBState)
    (sender ts : Nat) (payload : ScorePayload) (sig : Nat) :
    ((st.runs payload.sessionId).finalized = true →
      ∃ e : LBErr, submitScore recover st sender ts payload sig = Except.error e) ∧
    (∀ st' : LBState, submitScore recover st sender ts payload sig = Except.ok st' →
      (st'.runs payload.sessionId).finalized = true ∧
      (st.runs payload.sessionId).finalized = false) := by
  constructor
  · intro hfin
    unfold submitScore
    by_cases h1 : payload.player ≠ sender
    · rw [if_pos h1]
      exact ⟨.invalidSession, rfl⟩
    · rw [if_neg h1]
      by_cases h2 : (st.runs payload.sessionId).player ≠ sender
      · rw [if_pos h2]
        exact ⟨.invalidSession, rfl⟩
      · rw [if_neg h2, if_pos hfin]
        exact ⟨.runFinalized, rfl⟩
  · intro st' hok
    unfold submitScore at hok
    split at hok
    · exact Except.noConfusion hok
    · split at hok
      · exact Except.noConfusion hok
      · split at hok
        · exact Except.noConfusion hok
        · split at hok
          · exact Except.noConfusion hok
          · split at hok
            · exact Except.noConfusion hok
            · rename_i hnfin _ _
              injection hok with h
              subst h
              constructor
              · show (updMap st.runs payload.sessionId
                  { player := sender, finalized := true } payload.sessionId).finalized = true
                simp [updMap]
              · exact eq_false_of_ne_true hnfin

/-- Witness for C8: the finalized concrete state rejects a resubmission
even though `recW` recovers the correct signer, while the fresh state
accepts and marks the run finalized. -/
theorem c8_finalized_once_witness :
    (∃ e : LBErr, submitScore recW stFinal 7 100 payW 0 = Except.error e) ∧
    (∃ st', submitScore recW stFresh 7 100 payW 0 = Except.ok st' ∧
      (st'.runs payW.sessionId).finalized = true) := by
  constructor
  · exact (c8_finalized_once recW stFinal 7 100 payW 0).1 (by rfl)
  · obtain ⟨st', h⟩ : ∃ st', submitScore recW stFresh 7 100 payW 0 = Except.ok st' := ⟨_, rfl⟩
    exact ⟨st', h, ((c8_finalized_once recW stFresh 7 100 payW 0).2 st' h).1⟩

/-! ## C9: what mutates PlayerStats -/

/-- C9 counterexample: starting a run mutates the caller's `PlayerStats`
(the `runs` counter increments from 0 to 1), falsifying the claim that no
contract operation other than finalized submissions and eviction changes
any PlayerStats field. -/
theorem c9_cex_startRun_mutates_stats :
    (startRun stFresh 7 5 4).toOption.map (fun s => (s.players 7).runs) = some 1 ∧
    (stFresh.players 7).runs = 0 := by
  constructor
  · rfl
  · rfl

/-- C9 (amended): `PlayerStats` is mutated by `startRun` — which increments
exactly the caller's `runs` counter (so `runs` counts started, not
finalized, runs) and nothing else — in addition to finalized score
submissions and leaderboard eviction; the admin operations leave every
`PlayerStats` record unchanged. -/
theorem c9_stats_mutations (st : LBState) (sender value sessionId fee signer : Nat)
    (st' : LBState) (hok : startRun st sender value sessionId = Except.ok st') :
    (∀ p, p ≠ sender → st'.players p = st.players p) ∧
    st'.players sender = { st.players sender with runs := (st.players sender).runs + 1 } ∧
    (setEntryFee st fee).players = st.players ∧
    (setServerSigner st signer).players = st.players := by
  have hpl : st'.players = updMap st.players sender
      { st.players sender with runs := (st.players sender).runs + 1 } := by
    unfold startRun at hok
    split at hok
    · exact Except.noConfusion hok
    · split at hok
      · exact Except.noConfusion hok
      · split at hok
        · exact Except.noConfusion hok
        · injection hok with h
          subst h
          rfl
  refine ⟨?_, ?_, rfl, rfl⟩
  · intro p hp
    rw [hpl]
    simp [updMap, hp]
  · rw [hpl]
    simp [updMap]

/-- Witness for C9 at the concrete fresh state. -/
theorem c9_stats_mutations_witness :
    ∃ st', startRun stFresh 7 5 4 = Except.ok st' ∧
      st'.players 7 = { stFresh.players 7 with runs := (stFresh.players 7).runs + 1 } := by
  obtain ⟨st', h⟩ : ∃ st', startRun stFresh 7 5 4 = Except.ok st' := ⟨_, rfl⟩
  exact ⟨st', h, (c9_stats_mutations stFresh 7 5 4 0 0 st' h).2.1⟩

/-! ## Rank recomputation lemmas -/

/-- Board membership as a witness entry. -/
theorem onBoard_iff (lb : List LBEntry) (p : Nat) :
    onBoard lb p = true ↔ ∃ e ∈ lb, e.player = p := by
  simp [onBoard, List.any_eq_true]

/-- `_considerLeaderboardEntry` keeps the board within capacity. -/
theorem considerEntry_length (lb : List LBEntry) (e : LBEntry) (h : lb.length ≤ 25) :
    (considerEntry lb e).1.length ≤ 25 := by
  by_cases hc : lb.length < 25
  · rw [considerEntry_below lb e hc]
    show (bubbleCore lb e).length ≤ 25
    rw [(bubbleCore_perm lb e).length_eq]
    simp only [List.length_cons]
    omega
  · have hne : lb ≠ [] := by
      intro h0
      rw [h0] at hc
      exact hc (by norm_num)
    obtain ⟨tl, htl⟩ : ∃ tl, lb.getLast? = some tl :=
      ⟨lb.getLast hne, List.getLast?_eq_getLast lb hne⟩
    rw [considerEntry_at_cap lb e tl hc htl]
    split
    · exact h
    · split
      · exact h
      · show (bubbleCore lb.dropLast e).length ≤ 25
        rw [(bubbleCore_perm _ _).length_eq]
        simp only [List.length_cons, List.length_dropLast]
        omega

/-- Indices produced by `enumFrom` are bounded by start plus length. -/
theorem mem_enumFrom_fst_lt (l : List LBEntry) :
    ∀ (n : Nat) (q : Nat × LBEntry), q ∈ List.enumFrom n l → q.1 < n + l.length := by
  induction l with
  | nil => intro n q hq; cases hq
  | cons x xs ih =>
    intro n q hq
    rcases List.mem_cons.1 hq with hq | hq
    · subst hq
      simp only [List.length_cons]
      omega
    · have := ih (n + 1) q hq
      simp only [List.length_cons]
      omega

/-- Searching the enumerated board for a player succeeds exactly when the
player is on the board. -/
theorem find?_enumFrom_isSome (l : List LBEntry) :
    ∀ (n : Nat) (p : Nat),
      ((List.enumFrom n l).find? (fun q => q.2.player = p)).isSome = onBoard l p := by
  induction l with
  | nil => intro n p; rfl
  | cons x xs ih =>
    intro n p
    show (List.find? (fun q => decide (q.2.player = p)) ((n, x) :: List.enumFrom (n + 1) xs)).isSome = _
    rw [List.find?_cons]
    by_cases hxp : x.player = p
    · simp [hxp, onBoard]
    · simp only [onBoard, List.any_cons]
      rw [show (decide ((n, x).2.player = p)) = false from by simp [hxp]]
      simp only [Bool.false_or]
      exact ih (n + 1) p

/-- Absent players have first rank zero. -/
theorem firstRank_of_not_onBoard (lb : List LBEntry) (p : Nat)
    (h : onBoard lb p = false) : firstRank lb p = 0 := by
  unfold firstRank
  have hs := find?_enumFrom_isSome lb 0 p
  rw [h] at hs
  cases hf : lb.enum.find? (fun q => q.2.player = p) with
  | none => rfl
  | some q =>
    rw [show lb.enum = List.enumFrom 0 lb from rfl] at hf
    rw [hf] at hs
    exact Bool.noConfusion hs

/-- First pass of `_recalculateRanks`: players on the board get rank 0,
everyone else is untouched. -/
theorem zeroRanks_spec (lb : List LBEntry) :
    ∀ (ps : Nat → PlayerStats) (p : Nat),
      zeroRanks lb ps p = if onBoard lb p then { ps p with bestRank := 0 } else ps p := by
  induction lb with
  | nil => intro ps p; simp [zeroRanks, onBoard]
  | cons x xs ih =>
    intro ps p
    show zeroRanks xs (updMap ps x.player { ps x.player with bestRank := 0 }) p = _
    rw [ih]
    by_cases hxp : x.player = p
    · have hupd : updMap ps x.player { ps x.player with bestRank := 0 } p =
          { ps p with bestRank := 0 } := by
        simp [updMap, hxp]
      rw [hupd]
      have hcond : onBoard (x :: xs) p = true := by
        simp [onBoard, List.any_cons, hxp]
      rw [if_pos hcond]
      split
      · rfl
      · rfl
    · have hne : ¬(p = x.player) := fun h => hxp h.symm
      have hupd : updMap ps x.player { ps x.player with bestRank := 0 } p = ps p := by
        simp [updMap, hne]
      rw [hupd]
      have hcond : onBoard (x :: xs) p = onBoard xs p := by
        simp [onBoard, List.any_cons, hxp]
      rw [hcond]

/-- Second pass of `_recalculateRanks` over an enumerated suffix: a player
whose rank is already assigned is skipped; an unassigned player receives
one plus the index of its first occurrence. -/
theorem assignRanks_spec (l : List (Nat × LBEntry)) :
    ∀ (ps : Nat → PlayerStats) (p : Nat), (∀ q ∈ l, q.1 + 1 < 256) →
      assignRanks l ps p =
        if (ps p).bestRank ≠ 0 then ps p
        else
          match l.find? (fun q => q.2.player = p) with
          | some q => { ps p with bestRank := q.1 + 1 }
          | none => ps p := by
  induction l with
  | nil =>
    intro ps p _
    show ps p = _
    rw [List.find?_nil]
    split
    · rfl
    · rfl
  | cons a l ih =>
    intro ps p hidx
    have hmod : (a.1 + 1) % 256 = a.1 + 1 :=
      Nat.mod_eq_of_lt (hidx a (List.mem_cons_self a l))
    have htl : ∀ q ∈ l, q.1 + 1 < 256 := fun q hq => hidx q (List.mem_cons_of_mem a hq)
    show assignRanks l (if (ps a.2.player).bestRank = 0
      then updMap ps a.2.player { ps a.2.player with bestRank := (a.1 + 1) % 256 }
      else ps) p = _
    rw [List.find?_cons]
    by_cases hg : (ps a.2.player).bestRank = 0
    · rw [if_pos hg]
      rw [ih _ p htl]
      by_cases hap : a.2.player = p
      · have hupd : updMap ps a.2.player
            { ps a.2.player with bestRank := (a.1 + 1) % 256 } p =
            { ps p with bestRank := a.1 + 1 } := by
          simp [updMap, hap, hmod]
        rw [hupd]
        have hne : ({ ps p with bestRank := a.1 + 1 } : PlayerStats).bestRank ≠ 0 := by
          show a.1 + 1 ≠ 0
          omega
        rw [if_pos hne]
        have hps0 : ((ps p).bestRank ≠ 0) = False := by
          simp only [eq_iff_iff, iff_false, not_not]
          rw [← hap]
          exact hg
        rw [show (decide (a.2.player = p)) = true from by simp [hap]]
        simp only [hps0, if_false]
      · have hne : ¬(p = a.2.player) := fun h => hap h.symm
        have hupd : updMap ps a.2.player
            { ps a.2.player with bestRank := (a.1 + 1) % 256 } p = ps p := by
          simp [updMap, hne]
        rw [hupd]
        rw [show (decide (a.2.player = p)) = false from by simp [hap]]
    · rw [if_neg hg]
      rw [ih ps p htl]
      by_cases hap : a.2.player = p
      · have hps : (ps p).bestRank ≠ 0 := by
          rw [← hap]
          exact hg
        rw [if_pos hps, if_pos hps]
      · rw [show (decide (a.2.player = p)) = false from by simp [hap]]

/-- `_recalculateRanks` characterized: every player on the board gets the
1-based index of its first slot as best-rank (the `uint8` cast does not
truncate for boards within capacity); everyone else is untouched. -/
theorem recalcRanks_spec (lb : List LBEntry) (ps : Nat → PlayerStats) (p : Nat)
    (hlen : lb.length ≤ 25) :
    recalcRanks lb ps p =
      if onBoard lb p then { ps p with bestRank := firstRank lb p } else ps p := by
  unfold recalcRanks
  have hidx : ∀ q ∈ lb.enum, q.1 + 1 < 256 := by
    intro q hq
    have := mem_enumFrom_fst_lt lb 0 q hq
    omega
  rw [assignRanks_spec lb.enum (zeroRanks lb ps) p hidx]
  rw [zeroRanks_spec lb ps p]
  by_cases hob : onBoard lb p = true
  · rw [if_pos hob, if_pos hob]
    obtain ⟨q, hq⟩ : ∃ q, lb.enum.find? (fun q => q.2.player = p) = some q := by
      have hs := find?_enumFrom_isSome lb 0 p
      rw [hob] at hs
      cases hf : lb.enum.find? (fun q => q.2.player = p) with
      | none =>
        rw [show lb.enum = List.enumFrom 0 lb from rfl] at hf
        rw [hf] at hs
        exact Bool.noConfusion hs
      | some q => exact ⟨q, rfl⟩
    rw [hq]
    rw [if_neg (show ¬(({ ps p with bestRank := 0 } : PlayerStats).bestRank ≠ 0) from by simp)]
    show ({ ({ ps p with bestRank := 0 } : PlayerStats) with bestRank := q.1 + 1 } : PlayerStats) = _
    unfold firstRank
    rw [hq]
  · rw [if_neg hob, if_neg hob]
    by_cases hps : (ps p).bestRank ≠ 0
    · rw [if_pos hps]
    · rw [if_neg hps]
      have hs := find?_enumFrom_isSome lb 0 p
      rw [eq_false_of_ne_true hob] at hs
      cases hf : lb.enum.find? (fun q => q.2.player = p) with
      | none => rfl
      | some q =>
        rw [show lb.enum = List.enumFrom 0 lb from rfl] at hf
        rw [hf] at hs
        exact Bool.noConfusion hs

/-- The board splits into its front and the last-ranked entry. -/
theorem board_split_last (lb : List LBEntry) (tl : LBEntry) (hne : lb ≠ [])
    (htl : lb.getLast? = some tl) : lb = lb.dropLast ++ [tl] := by
  have hgl := List.getLast?_eq_getLast lb hne
  rw [htl] at hgl
  injection hgl with hgl
  rw [hgl]
  exact (List.dropLast_append_getLast hne).symm

/-- A player on the board who is not the reported evictee stays on the
board through `_considerLeaderboardEntry`. -/
theorem onBoard_considerEntry_preserved (lb : List LBEntry) (e : LBEntry) (p : Nat)
    (hob : onBoard lb p = true) (hnd : p ≠ (considerEntry lb e).2.2) :
    onBoard (considerEntry lb e).1 p = true := by
  obtain ⟨en, hen, henp⟩ := (onBoard_iff lb p).1 hob
  by_cases hc : lb.length < 25
  · rw [considerEntry_below lb e hc]
    exact (onBoard_iff _ p).2
      ⟨en, ((bubbleCore_perm lb e).mem_iff).2 (List.mem_cons_of_mem e hen), henp⟩
  · have hne : lb ≠ [] := by
      intro h0
      rw [h0] at hc
      exact hc (by norm_num)
    obtain ⟨tl, htl⟩ : ∃ tl, lb.getLast? = some tl :=
      ⟨lb.getLast hne, List.getLast?_eq_getLast lb hne⟩
    rw [considerEntry_at_cap lb e tl hc htl] at hnd ⊢
    by_cases h1 : e.score < tl.score
    · rw [if_pos h1]
      exact hob
    · rw [if_neg h1] at hnd ⊢
      by_cases h2 : e.score = tl.score ∧ e.updatedAt ≤ tl.updatedAt
      · rw [if_pos h2]
        exact hob
      · rw [if_neg h2] at hnd ⊢
        have hnd' : p ≠ tl.player := hnd
        rcases List.mem_append.1 ((board_split_last lb tl hne htl) ▸ hen) with hmem | hmem
        · exact (onBoard_iff _ p).2
            ⟨en, ((bubbleCore_perm _ _).mem_iff).2 (List.mem_cons_of_mem e hmem), henp⟩
        · have hentl : en = tl := List.mem_singleton.1 hmem
          exact absurd (by rw [← henp, hentl]) hnd'

/-- A player who vanished from the board was the reported evictee. -/
theorem dropped_of_vanished (lb : List LBEntry) (e : LBEntry) (p : Nat)
    (hob : onBoard lb p = true) (hnb : onBoard (considerEntry lb e).1 p = false) :
    p = (considerEntry lb e).2.2 := by
  by_contra hnd
  rw [onBoard_considerEntry_preserved lb e p hob hnd] at hnb
  exact Bool.noConfusion hnb

/-- `_considerLeaderboardEntry` introduces no zero-address slot. -/
theorem noZero_considerEntry (lb : List LBEntry) (e : LBEntry)
    (hz : NoZeroPlayers lb) (he : e.player ≠ 0) :
    NoZeroPlayers (considerEntry lb e).1 := by
  intro en hen
  by_cases hc : lb.length < 25
  · rw [considerEntry_below lb e hc] at hen
    rcases List.mem_cons.1 (((bubbleCore_perm lb e).mem_iff).1 hen) with h | h
    · rw [h]
      exact he
    · exact hz en h
  · have hne : lb ≠ [] := by
      intro h0
      rw [h0] at hc
      exact hc (by norm_num)
    obtain ⟨tl, htl⟩ : ∃ tl, lb.getLast? = some tl :=
      ⟨lb.getLast hne, List.getLast?_eq_getLast lb hne⟩
    rw [considerEntry_at_cap lb e tl hc htl] at hen
    by_cases h1 : e.score < tl.score
    · rw [if_pos h1] at hen
      exact hz en hen
    · rw [if_neg h1] at hen
      by_cases h2 : e.score = tl.score ∧ e.updatedAt ≤ tl.updatedAt
      · rw [if_pos h2] at hen
        exact hz en hen
      · rw [if_neg h2] at hen
        rcases List.mem_cons.1 (((bubbleCore_perm _ _).mem_iff).1 hen) with h | h
        · rw [h]
          exact he
        · exact hz en ((List.dropLast_sublist lb).subset h)

/-- The post-`considerEntry` player-map pipeline of `submitScore` — clear
the evictee's rank, then recompute ranks when the board changed — restores
the rank invariant, for any preceding update `p1` that does not touch
best-ranks (the best-score update does not). -/
theorem rankInv_pipeline (lb : List LBEntry) (players : Nat → PlayerStats) (entry : LBEntry)
    (hlen : lb.length ≤ 25) (hz : NoZeroPlayers lb)
    (hR : ∀ q, (players q).bestRank = firstRank lb q)
    (p1 : Nat → PlayerStats)
    (hp1 : ∀ q, (p1 q).bestRank = (players q).bestRank) (p : Nat) :
    ((if (considerEntry lb entry).2.1 then
        recalcRanks (considerEntry lb entry).1
          (if (considerEntry lb entry).2.2 ≠ 0 then
            updMap p1 (considerEntry lb entry).2.2
              { p1 (considerEntry lb entry).2.2 with bestRank := 0 }
          else p1)
      else
        (if (considerEntry lb entry).2.2 ≠ 0 then
          updMap p1 (considerEntry lb entry).2.2
            { p1 (considerEntry lb entry).2.2 with bestRank := 0 }
        else p1)) p).bestRank = firstRank (considerEntry lb entry).1 p := by
  by_cases hins : (considerEntry lb entry).2.1 = true
  · rw [if_pos hins]
    rw [recalcRanks_spec _ _ p (considerEntry_length lb entry hlen)]
    by_cases hob' : onBoard (considerEntry lb entry).1 p = true
    · rw [if_pos hob']
    · rw [if_neg hob']
      have hobF : onBoard (considerEntry lb entry).1 p = false := eq_false_of_ne_true hob'
      rw [firstRank_of_not_onBoard _ p hobF]
      by_cases hd : (considerEntry lb entry).2.2 ≠ 0
      · rw [if_pos hd]
        by_cases hpd : p = (considerEntry lb entry).2.2
        · show (updMap p1 _ _ p).bestRank = 0
          unfold updMap
          rw [if_pos hpd]
        · show (updMap p1 _ _ p).bestRank = 0
          unfold updMap
          rw [if_neg hpd]
          rw [hp1 p, hR p]
          by_cases hob : onBoard lb p = true
          · exact absurd (dropped_of_vanished lb entry p hob hobF) hpd
          · exact firstRank_of_not_onBoard lb p (eq_false_of_ne_true hob)
      · rw [if_neg hd]
        rw [hp1 p, hR p]
        by_cases hob : onBoard lb p = true
        · have hpd := dropped_of_vanished lb entry p hob hobF
          have hd0 : (considerEntry lb entry).2.2 = 0 := not_ne_iff.1 hd
          rw [hd0] at hpd
          obtain ⟨en, hen, henp⟩ := (onBoard_iff lb p).1 hob
          exact absurd (henp.trans hpd) (hz en hen)
        · exact firstRank_of_not_onBoard lb p (eq_false_of_ne_true hob)
  · have hcr := considerEntry_not_inserted lb entry (eq_false_of_ne_true hins)
    rw [hcr]
    rw [if_neg (show ¬(((lb, false, 0) : List LBEntry × Bool × Nat).2.1 = true)
      from fun h => Bool.noConfusion h)]
    rw [if_neg (show ¬(((lb, false, 0) : List LBEntry × Bool × Nat).2.2 ≠ 0)
      from fun h => h rfl)]
    rw [hp1 p, hR p]

/-- C10: leaderboard insertion performs no per-player deduplication — a
player submitting twice occupies two slots, shown on a concrete board —
and, over every reachable state (rank invariant, board within capacity, no
zero-address slots), every `submitScore` call re-establishes the rank
invariant: each player's stored best-rank equals the 1-based index of that
player's highest-ranked slot, and is 0 exactly when the player occupies no
slot. -/
theorem c10_no_dedup_and_rank_recompute (recover : ScorePayload → Nat → Nat) (st : LBState)
    (sender ts : Nat) (payload : ScorePayload) (sig : Nat) (st' : LBState)
    (hsender : sender ≠ 0)
    (hlen : st.leaderboard.length ≤ 25)
    (hz : NoZeroPlayers st.leaderboard)
    (hR : RankInv st)
    (hok : submitScore recover st sender ts payload sig = Except.ok st') :
    RankInv st' ∧ NoZeroPlayers st'.leaderboard ∧
    (considerEntry (considerEntry [] (mkEntry 7 10 1)).1 (mkEntry 7 20 2)).1.countP
      (fun e => e.player = 7) = 2 := by
  unfold submitScore at hok
  split at hok
  · exact Except.noConfusion hok
  · split at hok
    · exact Except.noConfusion hok
    · split at hok
      · exact Except.noConfusion hok
      · split at hok
        · exact Except.noConfusion hok
        · split at hok
          · exact Except.noConfusion hok
          · injection hok with h
            subst h
            refine ⟨?_, ?_, by decide⟩
            · intro p
              exact rankInv_pipeline st.leaderboard st.players
                { player := sender, score := payload.score,
                  sessionId := payload.sessionId, updatedAt := ts }
                hlen hz hR
                (if (st.players sender).bestScore < payload.score then
                  updMap st.players sender
                    { st.players sender with bestScore := payload.score }
                else st.players)
                (fun q => by
                  split
                  · unfold updMap
                    split
                    · rename_i hq
                      rw [hq]
                    · rfl
                  · rfl) p
            · exact noZero_considerEntry st.leaderboard
                { player := sender, score := payload.score,
                  sessionId := payload.sessionId, updatedAt := ts } hz hsender

/-- Witness for C10 at the concrete fresh state, whose rank invariant
holds trivially. -/
theorem c10_no_dedup_and_rank_recompute_witness :
    ∃ st', submitScore recW stFresh 7 100 payW 0 = Except.ok st' ∧ RankInv st' := by
  have hR : RankInv stFresh := fun p => rfl
  have hz : NoZeroPlayers stFresh.leaderboard := fun e he => absurd he (List.not_mem_nil e)
  obtain ⟨st', h⟩ : ∃ st', submitScore recW stFresh 7 100 payW 0 = Except.ok st' := ⟨_, rfl⟩
  exact ⟨st', h, (c10_no_dedup_and_rank_recompute recW stFresh 7 100 payW 0 st'
    (by decide) (by decide) hz hR h).1⟩

end L2Snake
